import Mathlib

/-!
Shallow embedding of `evol/population.py`: the `Individual`, `Population` and
`ContestPopulation` data model together with the operations `evaluate`,
`survive`, `breed`, `evolve`, `map` and `filter`, and theorems checking the
specification claims against it.  Randomness (`random.randint`,
`random.choices`) is modelled by explicit oracle arguments supplying the drawn
values; caller-provided callables are modelled as pure functions, with a `Nat`
call-index argument where the source may call them repeatedly.
-/

/-- One candidate solution: a chromosome with a cached, nullable fitness. -/
structure Individual (α : Type) where
  chromosome : α
  fitness : Option ℤ
deriving Repr, DecidableEq

/-- Modelled from the spec: `Individual.evaluate` (class `Individual` is imported
from `evol` but is not under `src/`).  Spec 4.1: for every individual whose
fitness is `None`, or unconditionally if `lazy=False`, invoke
`eval_function(chromosome)` and store the numeric result as fitness. -/
def Individual.evaluate {α : Type} (ind : Individual α) (evalFunction : α → ℤ)
    (lazy : Bool) : Individual α :=
  if lazy && ind.fitness.isSome then ind
  else { ind with fitness := some (evalFunction ind.chromosome) }

/-- Translation of the `Population` attributes set in `Population.__init__`. -/
structure Population (α : Type) where
  evalFunction : α → ℤ
  generation : Nat
  individuals : List (Individual α)
  intendedSize : Nat
  maximize : Bool

/-- Translation of `Population.__init__` (individuals are built from the
chromosomes with fitness `None`; `intended_size` defaults to the chromosome
count). -/
def Population.init {α : Type} (chromosomes : List α) (evalFunction : α → ℤ)
    (maximize : Bool) : Population α :=
  { evalFunction := evalFunction
    generation := 0
    individuals := chromosomes.map (fun c => { chromosome := c, fitness := none })
    intendedSize := chromosomes.length
    maximize := maximize }

/-- Value-semantics model of `copy.deepcopy`: a deep copy of an immutable value
is the value itself. -/
def deepcopy {α : Type} (x : α) : α := x

/-- Iterated application, modelling the outer `for evo_batch in range(n)` loop of
`evolve`. -/
def repeatApply {α : Type} (f : α → α) : Nat → α → α
  | 0, x => x
  | n + 1, x => repeatApply f n (f x)

/-- Translation of `Population.evolve`.  An evolution step is consumed only
through its `apply(population) -> population` contract and is modelled as the
mutation effect of `step.apply` on the population value (the return value of
`apply` is discarded by the source).  The method leaves `self` untouched and
returns the evolved deep copy, so its full effect is the pair
(state of `self` after the call, returned population). -/
def Population.evolve {α : Type} (p : Population α)
    (evolution : List (Population α → Population α)) (n : Nat) :
    Population α × Population α :=
  let result := deepcopy p
  (p, repeatApply (fun q => evolution.foldl (fun acc step => step acc) q) n result)

/-- Translation of `Population.evaluate`: delegate to `Individual.evaluate` for
every individual. -/
def Population.evaluate {α : Type} (p : Population α) (lazy : Bool) : Population α :=
  { p with individuals := p.individuals.map (fun ind => ind.evaluate p.evalFunction lazy) }

/-- Python `round` (round half to even) on a rational, modelling
`round(fraction * len(self.individuals))`. -/
def pyRound (q : ℚ) : ℤ :=
  let f : ℤ := ⌊q⌋
  if q - f < 1/2 then f
  else if (1 : ℚ)/2 < q - f then f + 1
  else if f % 2 = 0 then f else f + 1

/-- The survivor count computed by `Population.survive` from `fraction` and `n`
(the value for the case where both are `None` is never used: `survive` errors
before computing it). -/
def resultingSize (fraction : Option ℚ) (n : Option ℤ) (len : Nat) : ℤ :=
  match fraction, n with
  | none, none => 0
  | none, some m => m
  | some f, none => pyRound (f * (len : ℚ))
  | some f, some m => min (pyRound (f * (len : ℚ))) m

/-- Python list slicing `xs[:k]` for an `int` bound `k` (a negative bound counts
from the end of the list). -/
def pyTake {α : Type} (xs : List α) (k : ℤ) : List α :=
  if 0 ≤ k then xs.take k.toNat else xs.take (xs.length - (-k).toNat)

/-- Fitness sort key of `sorted(..., key=lambda x: x.fitness, ...)`; `survive`
sorts only after a lazy evaluation, so every fitness is present and the default
is never read. -/
def fitKey {α : Type} (ind : Individual α) : ℤ := ind.fitness.getD 0

/-- Translation of
`sorted(self.individuals, key=lambda x: x.fitness, reverse=self.maximize)`:
the Python sort is stable, and `List.insertionSort` with a non-strict comparison
keeps ties in their original order, matching it. -/
def sortByFitness {α : Type} (maximize : Bool) (l : List (Individual α)) :
    List (Individual α) :=
  if maximize then l.insertionSort (fun a b => fitKey b ≤ fitKey a)
  else l.insertionSort (fun a b => fitKey a ≤ fitKey b)

/-- Translation of `random.choices(self.individuals, k=..., weights=...)`: the
randomness is abstracted as the oracle `rand`, giving the index drawn at each of
the `k` draws (the fitness weights only shape the distribution of the oracle,
which the embedding quantifies over).  When the list is nonempty every lookup
succeeds and exactly `k.toNat` individuals are returned; Python returns the
empty list when `k <= 0`. -/
def luckPick {α : Type} (inds : List (Individual α)) (rand : Nat → Nat) (k : ℤ) :
    List (Individual α) :=
  (List.range k.toNat).filterMap (fun j => inds[rand j % inds.length]?)

/-- The selection part of `Population.survive`, shared with
`ContestPopulation.survive` (whose source delegates to the base
implementation): the degenerate-size checks followed by weighted sampling
(`luck`) or stable truncation of the fitness-sorted individuals. -/
def surviveSelect {α : Type} (inds : List (Individual α)) (maximize : Bool)
    (rs : ℤ) (luck : Bool) (rand : Nat → Nat) :
    Except String (List (Individual α)) :=
  if rs = 0 then .error "no one survived!"
  else if (inds.length : ℤ) < rs then
    .error "everyone survives! must provide \"fraction\" and/or \"n\" < population size"
  else if luck then .ok (luckPick inds rand rs)
  else .ok (pyTake (sortByFitness maximize inds) rs)

/-- Translation of `Population.survive`. -/
def Population.survive {α : Type} (p : Population α) (fraction : Option ℚ)
    (n : Option ℤ) (luck : Bool) (rand : Nat → Nat) :
    Except String (Population α) :=
  match fraction, n with
  | none, none => .error "everyone survives! must provide either \"fraction\" and/or \"n\"."
  | _, _ =>
    let q := p.evaluate true
    (surviveSelect q.individuals q.maximize
      (resultingSize fraction n p.individuals.length) luck rand).map
      (fun l => { q with individuals := l })

/-- Result of `parent_picker`: either a bare individual (it has no `__len__`) or
a sequence of individuals. -/
inductive Parents (α : Type) where
  | single : Individual α → Parents α
  | group : List (Individual α) → Parents α

/-- The wrapping `if not hasattr(parents, ...): parents = [parents]` performed by
`breed`. -/
def Parents.toList {α : Type} : Parents α → List (Individual α)
  | .single ind => [ind]
  | .group l => l

/-- Python truthiness of the `population_size` argument (an `int` or `None`), as
tested by `if population_size:`. -/
def pyTruthy : Option ℤ → Bool
  | none => false
  | some k => k != 0

/-- Translation of `Population.breed`.  The picker and the combiner receive the
loop counter as an extra oracle argument so that stateful or random operators
can be modelled by pure functions.  `select_arguments` (imported from
`evol.helpers.utils`, not under `src/`) only filters keyword arguments by the
declared parameter names of the callable, which the embedding does not model,
so `kwargs` are dropped.  A negative `population_size` is stored as `0`:
breeding then appends nothing, exactly as the source does for a negative
`intended_size`. -/
def Population.breed {α : Type} (p : Population α)
    (parentPicker : Nat → List (Individual α) → Parents α)
    (combiner : Nat → List α → α) (populationSize : Option ℤ) : Population α :=
  let intendedSize := if pyTruthy populationSize then (populationSize.getD 0).toNat
    else p.intendedSize
  let sizeBeforeBreed := p.individuals.length
  let inds := (List.range' p.individuals.length (intendedSize - p.individuals.length)).foldl
    (fun acc k =>
      let parents := (parentPicker k (acc.take sizeBeforeBreed)).toList
      let chromosomes := parents.map (fun ind => ind.chromosome)
      acc ++ [{ chromosome := combiner k chromosomes, fitness := none }])
    p.individuals
  { p with intendedSize := intendedSize, individuals := inds }

/-- Translation of the `ContestPopulation` attributes set in
`ContestPopulation.__init__`.  The source calls `eval_function` on the
competitor `Individual` objects themselves, so its model takes the list of
competitors and returns their scores. -/
structure ContestPopulation (α : Type) where
  evalFunction : List (Individual α) → List ℤ
  generation : Nat
  individuals : List (Individual α)
  intendedSize : Nat
  maximize : Bool
  matchesPerRound : Nat
  individualsPerMatch : Nat

/-- Translation of `ContestPopulation.__init__`. -/
def ContestPopulation.init {α : Type} (chromosomes : List α)
    (evalFunction : List (Individual α) → List ℤ) (matchesPerRound : Nat)
    (individualsPerMatch : Nat) (maximize : Bool) : ContestPopulation α :=
  { evalFunction := evalFunction
    generation := 0
    individuals := chromosomes.map (fun c => { chromosome := c, fitness := none })
    intendedSize := chromosomes.length
    maximize := maximize
    matchesPerRound := matchesPerRound
    individualsPerMatch := individualsPerMatch }

/-- The statement `competitor.fitness += score` at list position `j` (positions
stand for the Python object identities, which are pairwise distinct for a
freshly constructed population; during contest evaluation every fitness has been
set to `0` first, so the `getD` default is never read). -/
def addScore {α : Type} (inds : List (Individual α)) (j : Nat) (s : ℤ) :
    List (Individual α) :=
  inds.mapIdx (fun k ind =>
    if k = j then { ind with fitness := some (ind.fitness.getD 0 + s) } else ind)

/-- Positions of the competitors of match `i` of a round: position `i` of each
cyclic rotation of the individual sequence, the rotation with offset `o` holding
at position `i` the individual at list index `(o + i) % len`. -/
def matchIndices (len : Nat) (offsets : List Nat) (i : Nat) : List Nat :=
  offsets.map (fun o => (o + i) % len)

/-- One match: read the competitors, call `eval_function` on them, and add each
returned score to the running fitness of the corresponding competitor (`zip`
truncates to the shorter of competitors and scores, as in Python). -/
def playMatch {α : Type} (evalF : List (Individual α) → List ℤ)
    (inds : List (Individual α)) (offsets : List Nat) (i : Nat) :
    List (Individual α) :=
  let idxs := matchIndices inds.length offsets i
  let competitors := idxs.filterMap (fun j => inds[j]?)
  let scores := evalF competitors
  (idxs.zip scores).foldl (fun acc pr => addScore acc pr.1 pr.2) inds

/-- One tournament round: the anchor rotation at offset `0` followed by the
randomly drawn offsets, zipped position by position for
`len(self.individuals)` positions, i.e. one match for each position. -/
def playRound {α : Type} (evalF : List (Individual α) → List ℤ)
    (inds : List (Individual α)) (roundRand : List Nat) : List (Individual α) :=
  (List.range inds.length).foldl (fun acc i => playMatch evalF acc (0 :: roundRand) i) inds

/-- Translation of `ContestPopulation.evaluate`; `rand k` is the list of random
offsets `randint(0, len(self.individuals) - 1)` drawn for round `k` (one offset
for every rotation after the anchor rotation). -/
def ContestPopulation.evaluate {α : Type} (p : ContestPopulation α) (lazy : Bool)
    (rand : Nat → List Nat) : ContestPopulation α :=
  if lazy && p.individuals.all (fun ind => ind.fitness.isSome) then p
  else
    let reset := p.individuals.map (fun ind => { ind with fitness := some 0 })
    let rounds := (List.range p.matchesPerRound).foldl
      (fun acc k => playRound p.evalFunction acc (rand k)) reset
    { p with individuals := rounds }

/-- Translation of `ContestPopulation.reset_fitness`. -/
def ContestPopulation.resetFitness {α : Type} (p : ContestPopulation α) :
    ContestPopulation α :=
  { p with individuals := p.individuals.map (fun ind => { ind with fitness := none }) }

/-- Translation of `ContestPopulation.map`: the base `Population.map` followed by
`reset_fitness`. -/
def ContestPopulation.map {α : Type} (p : ContestPopulation α)
    (func : Individual α → Individual α) : ContestPopulation α :=
  ContestPopulation.resetFitness { p with individuals := p.individuals.map func }

/-- Translation of `ContestPopulation.filter`: the base `Population.filter`
followed by `reset_fitness`. -/
def ContestPopulation.filter {α : Type} (p : ContestPopulation α)
    (func : Individual α → Bool) : ContestPopulation α :=
  ContestPopulation.resetFitness { p with individuals := p.individuals.filter func }

/-- Translation of `ContestPopulation.survive`: the body of `Population.survive`
with `self.evaluate` dispatching to the contest evaluation, followed by
`reset_fitness` on success. -/
def ContestPopulation.survive {α : Type} (p : ContestPopulation α)
    (fraction : Option ℚ) (n : Option ℤ) (luck : Bool) (evalRand : Nat → List Nat)
    (luckRand : Nat → Nat) : Except String (ContestPopulation α) :=
  match fraction, n with
  | none, none => .error "everyone survives! must provide either \"fraction\" and/or \"n\"."
  | _, _ =>
    let q := p.evaluate true evalRand
    (surviveSelect q.individuals q.maximize
      (resultingSize fraction n p.individuals.length) luck luckRand).map
      (fun l => ContestPopulation.resetFitness { q with individuals := l })

/-- Element `n` of the stream `l ++ xs ++ xs ++ ...`; auxiliary for `cycleGet`. -/
def cycleGetAux {α : Type} (xs : List α) : Nat → List α → Option α
  | _, [] => none
  | 0, a :: _ => some a
  | n + 1, _ :: rest => if rest.isEmpty then cycleGetAux xs n xs else cycleGetAux xs n rest

/-- Element `n` of `itertools.cycle(xs)`, defined by walking the list and
starting over at its end, as the iterator does. -/
def cycleGet {α : Type} (xs : List α) (n : Nat) : Option α := cycleGetAux xs n xs

/-- Number of matches of a round (with the given offsets, over a population of
length `len`) in which the individual at position `j` takes part. -/
def participationCount (len : Nat) (offsets : List Nat) (j : Nat) : Nat :=
  ((List.range len).filter (fun i => decide (j ∈ matchIndices len offsets i))).length

/-- Number of matches of a round in which the individual at position `j`
occupies the anchor slot (slot `0`). -/
def anchorCount (len : Nat) (offsets : List Nat) (j : Nat) : Nat :=
  ((List.range len).filter (fun i => (matchIndices len offsets i).head? == some j)).length

/-- Total score credited to position `j` by a list of `(position, score)` pairs,
used to state how one match updates the running fitness values. -/
def scoreSum (pairs : List (Nat × ℤ)) (j : Nat) : ℤ :=
  ((pairs.filter (fun pr => pr.1 == j)).map (fun pr => pr.2)).sum

/-! Helper lemmas about the embedding. -/

/-- The fitness update applied by `addScore` at the hit position. -/
def bumpFitness {α : Type} (s : ℤ) (ind : Individual α) : Individual α :=
  { ind with fitness := some (ind.fitness.getD 0 + s) }

theorem fitness_bumpFitness {α : Type} (s : ℤ) (ind : Individual α) :
    (bumpFitness s ind).fitness = some (ind.fitness.getD 0 + s) := rfl

theorem bumpFitness_bumpFitness {α : Type} (s t : ℤ) (ind : Individual α) :
    bumpFitness t (bumpFitness s ind) = bumpFitness (s + t) ind := by
  cases ind with
  | mk c f => simp [bumpFitness, add_assoc]

theorem bumpFitness_zero {α : Type} (ind : Individual α)
    (h : ind.fitness.isSome) : bumpFitness 0 ind = ind := by
  cases ind with
  | mk c f =>
    cases f with
    | none => simp at h
    | some v => simp [bumpFitness]

@[simp]
theorem length_addScore {α : Type} (l : List (Individual α)) (j : Nat) (s : ℤ) :
    (addScore l j s).length = l.length := by
  simp [addScore]

theorem addScore_getElem? {α : Type} (l : List (Individual α)) (j : Nat) (s : ℤ)
    (k : Nat) :
    (addScore l j s)[k]? = if k = j then (l[k]?).map (bumpFitness s) else l[k]? := by
  simp only [addScore, List.getElem?_mapIdx]
  by_cases h : k = j
  · subst h
    rw [if_pos rfl]
    cases l[k]? with
    | none => rfl
    | some a => simp [bumpFitness]
  · rw [if_neg h]
    cases l[k]? with
    | none => rfl
    | some a => simp [h]

theorem scoreSum_nil (j : Nat) : scoreSum [] j = 0 := rfl

theorem scoreSum_cons (pr : Nat × ℤ) (pairs : List (Nat × ℤ)) (j : Nat) :
    scoreSum (pr :: pairs) j =
      if pr.1 = j then pr.2 + scoreSum pairs j else scoreSum pairs j := by
  by_cases h : pr.1 = j
  · simp [scoreSum, List.filter_cons, h]
  · simp [scoreSum, List.filter_cons, h]

theorem scoreSum_of_not_mem (pairs : List (Nat × ℤ)) (j : Nat)
    (h : j ∉ pairs.map Prod.fst) : scoreSum pairs j = 0 := by
  induction pairs with
  | nil => rfl
  | cons pr rest ih =>
    simp only [List.map_cons, List.mem_cons] at h
    push_neg at h
    have h1 : ¬pr.1 = j := fun hq => h.1 hq.symm
    rw [scoreSum_cons, if_neg h1, ih h.2]

theorem foldl_addScore_getElem? {α : Type} (pairs : List (Nat × ℤ))
    (l : List (Individual α)) (j : Nat) :
    (pairs.foldl (fun acc pr => addScore acc pr.1 pr.2) l)[j]? =
      if j ∈ pairs.map Prod.fst then (l[j]?).map (bumpFitness (scoreSum pairs j))
      else l[j]? := by
  induction pairs generalizing l with
  | nil => simp
  | cons pr rest ih =>
    rw [List.foldl_cons, ih (addScore l pr.1 pr.2), addScore_getElem?, scoreSum_cons]
    simp only [List.map_cons, List.mem_cons]
    by_cases hj : j = pr.1
    · rw [if_pos hj, if_pos hj.symm, if_pos (Or.inl hj)]
      by_cases hr : j ∈ rest.map Prod.fst
      · rw [if_pos hr]
        cases l[j]? with
        | none => rfl
        | some ind => simp [bumpFitness_bumpFitness]
      · rw [if_neg hr, scoreSum_of_not_mem rest j hr, add_zero]
    · have hj' : ¬pr.1 = j := fun hq => hj hq.symm
      rw [if_neg hj, if_neg hj']
      by_cases hr : j ∈ rest.map Prod.fst
      · rw [if_pos hr, if_pos (Or.inr hr)]
      · rw [if_neg hr, if_neg (fun h => h.elim hj hr)]

theorem length_foldl_addScore {α : Type} (pairs : List (Nat × ℤ))
    (l : List (Individual α)) :
    (pairs.foldl (fun acc pr => addScore acc pr.1 pr.2) l).length = l.length := by
  induction pairs generalizing l with
  | nil => rfl
  | cons pr rest ih => simp [List.foldl_cons, ih]

@[simp]
theorem length_playMatch {α : Type} (evalF : List (Individual α) → List ℤ)
    (inds : List (Individual α)) (offsets : List Nat) (i : Nat) :
    (playMatch evalF inds offsets i).length = inds.length := by
  simp [playMatch, length_foldl_addScore]

@[simp]
theorem length_playRound {α : Type} (evalF : List (Individual α) → List ℤ)
    (inds : List (Individual α)) (roundRand : List Nat) :
    (playRound evalF inds roundRand).length = inds.length := by
  unfold playRound
  generalize List.range inds.length = is
  induction is generalizing inds with
  | nil => rfl
  | cons i rest ih => simp [List.foldl_cons, ih]

theorem allSome_foldl_addScore {α : Type} (pairs : List (Nat × ℤ))
    (l : List (Individual α)) (h : ∀ ind ∈ l, ind.fitness.isSome) :
    ∀ ind ∈ pairs.foldl (fun acc pr => addScore acc pr.1 pr.2) l,
      ind.fitness.isSome := by
  intro ind hmem
  rcases List.mem_iff_getElem?.1 hmem with ⟨k, hk⟩
  rw [foldl_addScore_getElem?] at hk
  by_cases hin : k ∈ pairs.map Prod.fst
  · rw [if_pos hin] at hk
    cases hl : l[k]? with
    | none => rw [hl] at hk; cases hk
    | some a =>
      rw [hl] at hk
      cases hk
      rfl
  · rw [if_neg hin] at hk
    exact h ind (List.mem_iff_getElem?.2 ⟨k, hk⟩)

theorem allSome_playMatch {α : Type} (evalF : List (Individual α) → List ℤ)
    (inds : List (Individual α)) (offsets : List Nat) (i : Nat)
    (h : ∀ ind ∈ inds, ind.fitness.isSome) :
    ∀ ind ∈ playMatch evalF inds offsets i, ind.fitness.isSome := by
  unfold playMatch
  exact allSome_foldl_addScore _ _ h

theorem allSome_playRound {α : Type} (evalF : List (Individual α) → List ℤ)
    (inds : List (Individual α)) (roundRand : List Nat)
    (h : ∀ ind ∈ inds, ind.fitness.isSome) :
    ∀ ind ∈ playRound evalF inds roundRand, ind.fitness.isSome := by
  unfold playRound
  generalize List.range inds.length = is
  induction is generalizing inds with
  | nil => exact h
  | cons i rest ih =>
    rw [List.foldl_cons]
    exact ih _ (allSome_playMatch _ _ _ _ h)

theorem allSome_contestEvaluate {α : Type} (p : ContestPopulation α) (lazy : Bool)
    (rand : Nat → List Nat) :
    ∀ ind ∈ (p.evaluate lazy rand).individuals, ind.fitness.isSome := by
  unfold ContestPopulation.evaluate
  by_cases hg : (lazy && p.individuals.all (fun ind => ind.fitness.isSome)) = true
  · rw [if_pos hg]
    intro ind hmem
    exact List.all_eq_true.1 (Bool.and_elim_right hg) ind hmem
  · rw [if_neg hg]
    have hreset : ∀ ind ∈ p.individuals.map
        (fun ind => { ind with fitness := some 0 : Individual α }), ind.fitness.isSome := by
      intro ind hmem
      rcases List.mem_map.1 hmem with ⟨a, _, ha⟩
      rw [← ha]
      rfl
    simp only []
    generalize p.individuals.map (fun ind => { ind with fitness := some 0 : Individual α }) = l at hreset ⊢
    generalize List.range p.matchesPerRound = ks
    induction ks generalizing l with
    | nil => exact hreset
    | cons k rest ih =>
      rw [List.foldl_cons]
      exact ih _ (allSome_playRound _ _ _ hreset)

theorem contestEvaluate_of_allSome {α : Type} (p : ContestPopulation α)
    (rand : Nat → List Nat)
    (h : p.individuals.all (fun ind => ind.fitness.isSome) = true) :
    p.evaluate true rand = p := by
  unfold ContestPopulation.evaluate
  rw [if_pos (by rw [h]; rfl)]

@[simp]
theorem length_contestEvaluate {α : Type} (p : ContestPopulation α) (lazy : Bool)
    (rand : Nat → List Nat) :
    (p.evaluate lazy rand).individuals.length = p.individuals.length := by
  unfold ContestPopulation.evaluate
  by_cases hg : (lazy && p.individuals.all (fun ind => ind.fitness.isSome)) = true
  · rw [if_pos hg]
  · rw [if_neg hg]
    simp only []
    have hlen : (p.individuals.map
        (fun ind => { ind with fitness := some 0 : Individual α })).length =
        p.individuals.length := by simp
    generalize p.individuals.map (fun ind => { ind with fitness := some 0 : Individual α }) = l at hlen ⊢
    generalize List.range p.matchesPerRound = ks
    induction ks generalizing l with
    | nil => exact hlen
    | cons k rest ih =>
      rw [List.foldl_cons]
      exact ih _ (by rw [length_playRound, hlen])

theorem playMatch_const10_getElem? {α : Type} (inds : List (Individual α))
    (r i : Nat) (hi : i < inds.length)
    (hsome : ∀ ind ∈ inds, ind.fitness.isSome) (j : Nat) :
    (playMatch (fun _ => [1, 0]) inds (0 :: [r]) i)[j]? =
      if j = i then (inds[j]?).map (bumpFitness 1) else inds[j]? := by
  unfold playMatch matchIndices
  simp only [List.map_cons, List.map_nil, Nat.zero_add, Nat.mod_eq_of_lt hi]
  rw [List.zip_cons_cons, List.zip_cons_cons, List.zip_nil_right,
    foldl_addScore_getElem?]
  simp only [List.map_cons, List.map_nil, List.mem_cons, List.not_mem_nil, or_false]
  by_cases hj : j = i
  · rw [if_pos (Or.inl hj), if_pos hj]
    have hs : scoreSum [(i, 1), ((r + i) % inds.length, 0)] j = 1 := by
      by_cases hri : (r + i) % inds.length = j <;>
        simp [scoreSum_cons, scoreSum_nil, hj, hri]
    rw [hs]
  · by_cases hri : j = (r + i) % inds.length
    · rw [if_pos (Or.inr hri), if_neg hj]
      have hs : scoreSum [(i, 1), ((r + i) % inds.length, 0)] j = 0 := by
        have hij : ¬i = j := fun h => hj h.symm
        simp [scoreSum_cons, scoreSum_nil, hij, hri.symm]
      rw [hs]
      cases hl : inds[j]? with
      | none => rfl
      | some a =>
        have ha : a.fitness.isSome := hsome a (List.mem_iff_getElem?.2 ⟨j, hl⟩)
        simp [bumpFitness_zero a ha]
    · rw [if_neg (fun h => h.elim hj hri), if_neg hj]

theorem foldl_playMatch_const10_getElem? {α : Type} (r : Nat) (is : List Nat)
    (inds : List (Individual α)) (hall : ∀ i ∈ is, i < inds.length)
    (hnd : is.Nodup) (hsome : ∀ ind ∈ inds, ind.fitness.isSome) (j : Nat) :
    (is.foldl (fun acc i => playMatch (fun _ => [1, 0]) acc (0 :: [r]) i) inds)[j]? =
      if j ∈ is then (inds[j]?).map (bumpFitness 1) else inds[j]? := by
  induction is generalizing inds with
  | nil => simp
  | cons i rest ih =>
    rw [List.foldl_cons]
    have hi : i < inds.length := hall i (List.mem_cons_self i rest)
    have hstep := playMatch_const10_getElem? inds r i hi hsome
    have hlen : (playMatch (fun _ => [1, 0]) inds (0 :: [r]) i).length = inds.length :=
      length_playMatch _ _ _ _
    have hrest : ∀ k ∈ rest, k < (playMatch (fun _ => [1, 0]) inds (0 :: [r]) i).length := by
      intro k hk
      rw [hlen]
      exact hall k (List.mem_cons_of_mem i hk)
    have hnd' : rest.Nodup := (List.nodup_cons.1 hnd).2
    have hni : i ∉ rest := (List.nodup_cons.1 hnd).1
    rw [ih _ hrest hnd' (allSome_playMatch _ _ _ _ hsome)]
    by_cases hr : j ∈ rest
    · have hji : ¬j = i := fun h => hni (h ▸ hr)
      rw [if_pos hr, hstep j, if_neg hji, if_pos (List.mem_cons_of_mem i hr)]
    · rw [if_neg hr, hstep j]
      by_cases hj : j = i
      · rw [if_pos hj, if_pos (List.mem_cons.2 (Or.inl hj))]
      · rw [if_neg hj, if_neg (fun h => (List.mem_cons.1 h).elim hj hr)]

theorem anchorCount_cons_zero {L : Nat} (rest : List Nat) (j : Nat) (hj : j < L) :
    anchorCount L (0 :: rest) j = 1 := by
  unfold anchorCount matchIndices
  have hcongr : ∀ i ∈ List.range L,
      ((((0 :: rest).map (fun o => (o + i) % L)).head? == some j)) = (i == j) := by
    intro i hi
    have hiL : i < L := List.mem_range.1 hi
    simp [Nat.mod_eq_of_lt hiL]
  rw [List.filter_congr hcongr]
  have : ((List.range L).filter (fun i => i == j)).length = (List.range L).count j := by
    rw [List.count]
    rw [List.countP_eq_length_filter]
  rw [this]
  exact List.count_eq_one_of_mem (List.nodup_range L) (List.mem_range.2 hj)

theorem participationCount_pos {L : Nat} (rest : List Nat) (j : Nat) (hj : j < L) :
    1 ≤ participationCount L (0 :: rest) j := by
  unfold participationCount
  have hmem : j ∈ (List.range L).filter
      (fun i => decide (j ∈ matchIndices L (0 :: rest) i)) := by
    refine List.mem_filter.2 ⟨List.mem_range.2 hj, ?_⟩
    have : j ∈ matchIndices L (0 :: rest) j := by
      unfold matchIndices
      simp [Nat.mod_eq_of_lt hj]
    simpa using this
  have hne : (List.range L).filter
      (fun i => decide (j ∈ matchIndices L (0 :: rest) i)) ≠ [] :=
    List.ne_nil_of_mem hmem
  have := List.length_pos.2 hne
  omega

/-! Claim C1. -/

/-- Concrete contest population for claim C1: two chromosomes,
`matches_per_round = 1`, `individuals_per_match = 2`. -/
def contestC1 : ContestPopulation ℤ :=
  ContestPopulation.init [10, 20] (fun _ => [1, 0]) 1 2 true

/-- C1, counterexample: with chromosomes `[10, 20]`, `individuals_per_match = 2`,
`matches_per_round = 1`, the `eval_function` returning the score sequence
`(1, 0)` for every match, and the random rotation offset drawn as `1`, every
individual ends with fitness `1`, yet individual `0` participated in `2` of the
matches of the round (as anchor of match `0` and as second competitor of match
`1`), so its fitness does not equal the number of matches in which it
participated. -/
theorem contest_fitness_participation_counterexample :
    ((contestC1.evaluate false (fun _ => [1])).individuals.map
      (fun ind => ind.fitness) = [some 1, some 1])
    ∧ participationCount 2 [0, 1] 0 = 2
    ∧ some (1 : ℤ) ≠ some ((participationCount 2 [0, 1] 0 : Nat) : ℤ) :=
  ⟨rfl, rfl, by decide⟩

/-- C1 (amended): for a `ContestPopulation` with `individuals_per_match = 2`,
`matches_per_round = 1` and an `eval_function` returning the score sequence
`(1, 0)` for every match, after `evaluate()` every individual ends with fitness
exactly `1` — the number of matches in which it occupied the anchor slot, not
the number of matches in which it participated — for every choice of the random
rotation offset; every individual still participates in at least one match (its
anchor match). -/
theorem contest_fitness_anchor_amended {α : Type} (cp : ContestPopulation α)
    (rand : Nat → List Nat) (r : Nat) (hmpr : cp.matchesPerRound = 1)
    (hipm : cp.individualsPerMatch = 2) (heval : cp.evalFunction = fun _ => [1, 0])
    (hrand : rand 0 = [r]) :
    ((cp.evaluate false rand).individuals.map (fun ind => ind.fitness) =
      List.replicate cp.individuals.length (some 1))
    ∧ (∀ j < cp.individuals.length,
        anchorCount cp.individuals.length (0 :: rand 0) j = 1)
    ∧ (∀ j < cp.individuals.length,
        1 ≤ participationCount cp.individuals.length (0 :: rand 0) j) := by
  refine ⟨?_, fun j hj => anchorCount_cons_zero (rand 0) j hj,
    fun j hj => participationCount_pos (rand 0) j hj⟩
  have hreset : ∀ ind ∈ cp.individuals.map
      (fun ind => { ind with fitness := some 0 : Individual α }),
      ind.fitness.isSome := by
    intro ind hmem
    rcases List.mem_map.1 hmem with ⟨a, _, ha⟩
    rw [← ha]; rfl
  have hinds : (cp.evaluate false rand).individuals =
      (List.range cp.individuals.length).foldl
        (fun acc i => playMatch (fun _ => [1, 0]) acc (0 :: [r]) i)
        (cp.individuals.map (fun ind => { ind with fitness := some 0 })) := by
    unfold ContestPopulation.evaluate
    rw [if_neg (by simp)]
    have hr1 : List.range 1 = [0] := rfl
    rw [heval, hmpr, hr1]
    dsimp only []
    rw [List.foldl_cons, List.foldl_nil]
    show playRound _ _ (rand 0) = _
    unfold playRound
    rw [hrand]
    simp
  rw [hinds]
  apply List.ext_getElem?
  intro k
  have hall : ∀ i ∈ List.range cp.individuals.length,
      i < (cp.individuals.map
        (fun ind => { ind with fitness := some 0 : Individual α })).length := by
    intro i hi
    simpa using List.mem_range.1 hi
  rw [List.getElem?_map,
    foldl_playMatch_const10_getElem? r _ _ hall (List.nodup_range _) hreset]
  by_cases hk : k < cp.individuals.length
  · rw [if_pos (List.mem_range.2 hk), List.getElem?_map,
      List.getElem?_eq_getElem hk, List.getElem?_replicate_of_lt hk]
    simp [bumpFitness]
  · rw [if_neg (fun h => hk (List.mem_range.1 h)),
      List.getElem?_eq_none (by simpa using Nat.le_of_not_lt hk)]
    rw [List.getElem?_replicate, if_neg hk]
    rfl

/-- C1, witness for the amended theorem: the amended statement evaluated on the
concrete population `contestC1` with the random offset drawn as `1`. -/
theorem contest_fitness_anchor_amended_witness :
    ((contestC1.evaluate false (fun _ => [1])).individuals.map
      (fun ind => ind.fitness) =
      List.replicate contestC1.individuals.length (some 1))
    ∧ anchorCount contestC1.individuals.length (0 :: [1]) 0 = 1 :=
  ⟨(contest_fitness_anchor_amended contestC1 (fun _ => [1]) 1 rfl rfl rfl rfl).1,
    (contest_fitness_anchor_amended contestC1 (fun _ => [1]) 1 rfl rfl rfl rfl).2.1
      0 (by decide)⟩

theorem cycleGetAux_spec {α : Type} (xs : List α) :
    ∀ (n : Nat) (l : List α), l ≠ [] → l <:+ xs →
      cycleGetAux xs n l = xs[(xs.length - l.length + n) % xs.length]? := by
  intro n
  induction n with
  | zero =>
    intro l hne hsuf
    match l, hne with
    | a :: t, _ =>
      rcases hsuf with ⟨pre, hpre⟩
      have hlen : xs.length = pre.length + (t.length + 1) := by
        rw [← hpre]; simp
      have hsub : xs.length - (a :: t).length = pre.length := by
        simp only [List.length_cons]
        omega
      have hlt : pre.length < xs.length := by omega
      rw [hsub, Nat.add_zero, Nat.mod_eq_of_lt hlt, ← hpre,
        List.getElem?_append_right (Nat.le_refl pre.length)]
      simp [cycleGetAux]
  | succ n ih =>
    intro l hne hsuf
    match l, hne with
    | a :: rest, _ =>
      have hlen1 : 1 ≤ xs.length := by
        have hc := hsuf.length_le
        simp only [List.length_cons] at hc
        omega
      have hxs : xs ≠ [] := by
        intro h
        rw [h] at hlen1
        simp at hlen1
      by_cases hrest : rest = []
      · subst hrest
        have hstep : cycleGetAux xs (n + 1) [a] = cycleGetAux xs n xs := by
          simp [cycleGetAux]
        rw [hstep, ih xs hxs (List.suffix_refl xs)]
        have h1 : xs.length - xs.length + n = n := by omega
        have h2 : xs.length - [a].length + (n + 1) = xs.length + n := by
          simp only [List.length_singleton]
          omega
        rw [h1, h2, Nat.add_mod_left]
      · have hstep : cycleGetAux xs (n + 1) (a :: rest) = cycleGetAux xs n rest := by
          have : rest.isEmpty = false := by
            cases rest with
            | nil => exact absurd rfl hrest
            | cons b t => rfl
          simp [cycleGetAux, this]
        have hsuf' : rest <:+ xs := (List.suffix_cons a rest).trans hsuf
        have hle : (a :: rest).length ≤ xs.length := hsuf.length_le
        rw [hstep, ih rest hrest hsuf']
        have : xs.length - rest.length + n = xs.length - (a :: rest).length + (n + 1) := by
          simp only [List.length_cons] at hle ⊢
          omega
        rw [this]

/-- The element at position `n` of the cyclic iterator over a nonempty list is
the element of the list at index `n` modulo the list length. -/
theorem cycleGet_eq {α : Type} (xs : List α) (hne : xs ≠ []) (n : Nat) :
    cycleGet xs n = xs[n % xs.length]? := by
  have h := cycleGetAux_spec xs n xs hne (List.suffix_refl xs)
  rw [cycleGet, h, Nat.sub_self, Nat.zero_add]

/-! Claim C5. -/

/-- C5: structure of one round of `ContestPopulation.evaluate` over a non-empty
population of length `L` with `individuals_per_match = ipm` competitors per
match and random offsets `rnd` for the non-anchor rotations: the round plays one
match per position, i.e. exactly `L` matches; the competitors of match `i` are
the elements at position `i` of the cyclic rotations of the individual sequence
with offsets `0 :: rnd`, `ipm` of them; the anchor rotation has offset `0`, so
the first competitor position of match `i` is `i` and every position is the
anchor of exactly one match of the round; coinciding offsets give repeated
competitor positions within a match; and a match adds each returned score to the
running fitness of the competitor position it is aligned with. -/
theorem contest_round_structure {α : Type} (evalF : List (Individual α) → List ℤ)
    (inds : List (Individual α)) (rnd : List Nat) (ipm : Nat)
    (hne : inds ≠ []) (hipm : 1 ≤ ipm) (hrnd : rnd.length = ipm - 1) :
    playRound evalF inds rnd =
      (List.range inds.length).foldl
        (fun acc i => playMatch evalF acc (0 :: rnd) i) inds
    ∧ (List.range inds.length).length = inds.length
    ∧ (∀ (cur : List (Individual α)) (i : Nat), cur ≠ [] →
        (matchIndices cur.length (0 :: rnd) i).filterMap (fun j => cur[j]?) =
          (0 :: rnd).filterMap (fun o => cycleGet cur (o + i)))
    ∧ (∀ i : Nat, (matchIndices inds.length (0 :: rnd) i).length = ipm)
    ∧ (∀ i < inds.length, (matchIndices inds.length (0 :: rnd) i).head? = some i)
    ∧ (∀ j < inds.length, anchorCount inds.length (0 :: rnd) j = 1)
    ∧ (∀ i a b : Nat, (0 :: rnd)[a]? = (0 :: rnd)[b]? →
        (matchIndices inds.length (0 :: rnd) i)[a]? =
          (matchIndices inds.length (0 :: rnd) i)[b]?)
    ∧ (∀ (cur : List (Individual α)) (i j : Nat),
        (playMatch evalF cur (0 :: rnd) i)[j]? =
          (if j ∈ (((matchIndices cur.length (0 :: rnd) i).zip
              (evalF ((matchIndices cur.length (0 :: rnd) i).filterMap
                (fun k => cur[k]?)))).map Prod.fst)
           then (cur[j]?).map (bumpFitness (scoreSum
              ((matchIndices cur.length (0 :: rnd) i).zip
                (evalF ((matchIndices cur.length (0 :: rnd) i).filterMap
                  (fun k => cur[k]?)))) j))
           else cur[j]?)) := by
  refine ⟨rfl, List.length_range _, ?_, ?_, ?_, ?_, ?_, ?_⟩
  · intro cur i hcur
    rw [matchIndices, List.filterMap_map]
    apply List.filterMap_congr
    intro o _
    rw [Function.comp_apply, cycleGet_eq cur hcur]
  · intro i
    rw [matchIndices, List.length_map, List.length_cons, hrnd]
    omega
  · intro i hi
    rw [matchIndices, List.head?_map]
    simp [Nat.mod_eq_of_lt hi]
  · intro j hj
    exact anchorCount_cons_zero rnd j hj
  · intro i a b hab
    rw [matchIndices, List.getElem?_map, List.getElem?_map, hab]
  · intro cur i j
    simp only [playMatch]
    rw [foldl_addScore_getElem?]

/-- C5, witness: the round structure evaluated on the concrete two-individual
contest population with one extra rotation at offset `1`. -/
theorem contest_round_structure_witness :
    (playRound (fun _ => [(1 : ℤ), 0]) contestC1.individuals [1] =
      (List.range contestC1.individuals.length).foldl
        (fun acc i => playMatch (fun _ => [(1 : ℤ), 0]) acc (0 :: [1]) i)
        contestC1.individuals)
    ∧ (matchIndices contestC1.individuals.length (0 :: [1]) 0).length = 2
    ∧ (matchIndices contestC1.individuals.length (0 :: [1]) 0).head? = some 0 :=
  ⟨(contest_round_structure (fun _ => [(1 : ℤ), 0]) contestC1.individuals [1] 2
      (by decide) (by decide) rfl).1,
    (contest_round_structure (fun _ => [(1 : ℤ), 0]) contestC1.individuals [1] 2
      (by decide) (by decide) rfl).2.2.2.1 0,
    (contest_round_structure (fun _ => [(1 : ℤ), 0]) contestC1.individuals [1] 2
      (by decide) (by decide) rfl).2.2.2.2.1 0 (by decide)⟩

/-! Claim C9. -/

theorem Individual.evaluate_fitness_isSome {α : Type} (ind : Individual α)
    (f : α → ℤ) (lazy : Bool) : (ind.evaluate f lazy).fitness.isSome := by
  unfold Individual.evaluate
  by_cases h : (lazy && ind.fitness.isSome) = true
  · rw [if_pos h]
    exact Bool.and_elim_right h
  · rw [if_neg h]
    rfl

theorem Individual.evaluate_of_isSome {α : Type} (ind : Individual α) (f : α → ℤ)
    (h : ind.fitness.isSome) : ind.evaluate f true = ind := by
  unfold Individual.evaluate
  rw [if_pos (by simp [h])]

/-- Example population shared by several witnesses: the population of the
survive example, `Population(chromosomes=[1,2,3,4], eval_function=lambda c: c,
maximize=True)`. -/
def popExample : Population ℤ := Population.init [1, 2, 3, 4] (fun c => c) true

/-- Contest population whose individuals all carry a fitness value already. -/
def contestAllSome : ContestPopulation ℤ :=
  { contestC1 with individuals :=
      [{ chromosome := 10, fitness := some 5 }, { chromosome := 20, fitness := some 7 }] }

/-- C9: evaluation is idempotent under `lazy=True`.  Calling `evaluate(lazy=True)`
twice in a row leaves every fitness unchanged after the first call, both for a
plain `Population` and for a `ContestPopulation` (whatever offsets the second
call would draw); in particular a `ContestPopulation` in which every individual
already has non-null fitness is returned unchanged by `evaluate(lazy=True)`. -/
theorem evaluate_lazy_idempotent {α : Type} :
    (∀ p : Population α, (p.evaluate true).evaluate true = p.evaluate true)
    ∧ (∀ (cp : ContestPopulation α) (rand rand' : Nat → List Nat),
        (cp.evaluate true rand).evaluate true rand' = cp.evaluate true rand)
    ∧ (∀ (cp : ContestPopulation α) (rand : Nat → List Nat),
        cp.individuals.all (fun ind => ind.fitness.isSome) = true →
        cp.evaluate true rand = cp) := by
  refine ⟨?_, ?_, fun cp rand h => contestEvaluate_of_allSome cp rand h⟩
  · intro p
    unfold Population.evaluate
    simp only [List.map_map]
    congr 1
    apply List.map_congr_left
    intro ind _
    exact Individual.evaluate_of_isSome _ _ (Individual.evaluate_fitness_isSome ind _ true)
  · intro cp rand rand'
    apply contestEvaluate_of_allSome
    exact List.all_eq_true.2 (allSome_contestEvaluate cp true rand)

/-- C9, witness: idempotence evaluated on the concrete example populations. -/
theorem evaluate_lazy_idempotent_witness :
    ((popExample.evaluate true).evaluate true = popExample.evaluate true)
    ∧ ((contestC1.evaluate true (fun _ => [1])).evaluate true (fun _ => [0]) =
        contestC1.evaluate true (fun _ => [1]))
    ∧ (contestAllSome.evaluate true (fun _ => [1]) = contestAllSome) :=
  ⟨(evaluate_lazy_idempotent (α := ℤ)).1 popExample,
    (evaluate_lazy_idempotent (α := ℤ)).2.1 contestC1 (fun _ => [1]) (fun _ => [0]),
    (evaluate_lazy_idempotent (α := ℤ)).2.2 contestAllSome (fun _ => [1]) rfl⟩

/-! Claim C6. -/

theorem map_fitness_setNone {α : Type} (l : List (Individual α)) :
    (l.map (fun ind => { ind with fitness := none : Individual α })).map
      (fun ind => ind.fitness) = List.replicate l.length none := by
  induction l with
  | nil => rfl
  | cons a t ih => simp [ih, List.replicate_succ]

theorem except_map_eq_ok {ε α β : Type} {f : α → β} {e : Except ε α} {b : β}
    (h : e.map f = .ok b) : ∃ a, e = .ok a ∧ f a = b := by
  cases e with
  | error err => simp [Except.map] at h
  | ok a => exact ⟨a, rfl, by simpa [Except.map] using h⟩

theorem resetFitness_allNone {α : Type} (cp : ContestPopulation α) :
    cp.resetFitness.individuals.map (fun ind => ind.fitness) =
      List.replicate cp.resetFitness.individuals.length none := by
  unfold ContestPopulation.resetFitness
  simp only [List.length_map]
  exact map_fitness_setNone cp.individuals

/-- C6: for every `ContestPopulation`, immediately after any call to `map` or
`filter`, and after any successful call to `survive`, every remaining
fitness of every remaining individual is `None`. -/
theorem contest_fitness_invalidation {α : Type} :
    (∀ (cp : ContestPopulation α) (func : Individual α → Individual α),
      (cp.map func).individuals.map (fun ind => ind.fitness) =
        List.replicate (cp.map func).individuals.length none)
    ∧ (∀ (cp : ContestPopulation α) (func : Individual α → Bool),
      (cp.filter func).individuals.map (fun ind => ind.fitness) =
        List.replicate (cp.filter func).individuals.length none)
    ∧ (∀ (cp q : ContestPopulation α) (fraction : Option ℚ) (n : Option ℤ)
        (luck : Bool) (evalRand : Nat → List Nat) (luckRand : Nat → Nat),
      cp.survive fraction n luck evalRand luckRand = .ok q →
      q.individuals.map (fun ind => ind.fitness) =
        List.replicate q.individuals.length none) := by
  refine ⟨fun cp func => resetFitness_allNone _, fun cp func => resetFitness_allNone _, ?_⟩
  intro cp q fraction n luck evalRand luckRand h
  unfold ContestPopulation.survive at h
  split at h
  · exact absurd h (by simp)
  · dsimp only [] at h
    rcases except_map_eq_ok h with ⟨l, _, hg⟩
    rw [← hg]
    exact resetFitness_allNone _

/-- The result of the concrete successful contest `survive` call used as
witness for C6. -/
def contestSurvived : ContestPopulation ℤ :=
  { contestAllSome with individuals := [{ chromosome := 20, fitness := none }] }

/-- C6, witness: the invalidation evaluated on concrete contest populations,
including one concrete successful `survive` call. -/
theorem contest_fitness_invalidation_witness :
    ((contestC1.map (fun ind => ind)).individuals.map (fun ind => ind.fitness) =
      List.replicate (contestC1.map (fun ind => ind)).individuals.length none)
    ∧ ((contestC1.filter (fun _ => true)).individuals.map (fun ind => ind.fitness) =
      List.replicate (contestC1.filter (fun _ => true)).individuals.length none)
    ∧ (contestSurvived.individuals.map (fun ind => ind.fitness) =
      List.replicate contestSurvived.individuals.length none) :=
  ⟨(contest_fitness_invalidation (α := ℤ)).1 contestC1 (fun ind => ind),
    (contest_fitness_invalidation (α := ℤ)).2.1 contestC1 (fun _ => true),
    (contest_fitness_invalidation (α := ℤ)).2.2 contestAllSome contestSurvived
      none (some 1) false (fun _ => [1]) (fun _ => 0) rfl⟩

/-! Claim C7. -/

theorem repeatApply_succ {α : Type} (f : α → α) (n : Nat) (x : α) :
    repeatApply f (n + 1) x = f (repeatApply f n x) := by
  induction n generalizing x with
  | zero => rfl
  | succ n ih =>
    show repeatApply f (n + 1) (f x) = f (repeatApply f (n + 1) x)
    rw [ih (f x)]
    rfl

/-- C7: `evolve(evolution, n)` never mutates the `Population` it is called on —
the state of `self` after the call is the population it started from, with the
same individuals, chromosomes and fitness values — and the returned population
is the deep copy of the original threaded through every step of the evolution,
`n` times in sequence: zero repetitions return the copy of the original
unchanged, and each further repetition applies every step, in order, to the
result of the previous repetition. -/
theorem evolve_pure {α : Type} (p : Population α)
    (evolution : List (Population α → Population α)) (n : Nat) :
    (p.evolve evolution n).1 = p
    ∧ (p.evolve evolution 0).2 = p
    ∧ (∀ m : Nat, (p.evolve evolution (m + 1)).2 =
        evolution.foldl (fun acc step => step acc) ((p.evolve evolution m).2)) := by
  refine ⟨rfl, rfl, fun m => ?_⟩
  exact repeatApply_succ (fun q => evolution.foldl (fun acc step => step acc) q) m
    (deepcopy p)

/-! Claims C2, C3, C8: survival. -/

@[simp]
theorem length_evaluate {α : Type} (p : Population α) (lazy : Bool) :
    (p.evaluate lazy).individuals.length = p.individuals.length := by
  simp [Population.evaluate]

theorem length_filterMap_of_isSome {α β : Type} (f : α → Option β) (l : List α)
    (h : ∀ a ∈ l, (f a).isSome) : (l.filterMap f).length = l.length := by
  induction l with
  | nil => rfl
  | cons a t ih =>
    cases hfa : f a with
    | none =>
      have := h a (List.mem_cons_self a t)
      rw [hfa] at this
      cases this
    | some b =>
      rw [List.filterMap_cons_some hfa, List.length_cons, List.length_cons,
        ih (fun x hx => h x (List.mem_cons_of_mem a hx))]

theorem length_luckPick {α : Type} (inds : List (Individual α)) (rand : Nat → Nat)
    (k : ℤ) (hne : inds ≠ []) : (luckPick inds rand k).length = k.toNat := by
  unfold luckPick
  rw [length_filterMap_of_isSome, List.length_range]
  intro j _
  have hpos : 0 < inds.length := List.length_pos.2 hne
  have hlt : rand j % inds.length < inds.length := Nat.mod_lt _ hpos
  rw [List.getElem?_eq_getElem hlt]
  rfl

@[simp]
theorem length_sortByFitness {α : Type} (maximize : Bool)
    (l : List (Individual α)) : (sortByFitness maximize l).length = l.length := by
  unfold sortByFitness
  by_cases h : maximize = true
  · rw [if_pos h, List.length_insertionSort]
  · rw [if_neg h, List.length_insertionSort]

theorem length_pyTake {α : Type} (xs : List α) (k : ℤ) (h0 : 0 ≤ k)
    (hk : k ≤ (xs.length : ℤ)) : (pyTake xs k).length = k.toNat := by
  unfold pyTake
  rw [if_pos h0, List.length_take]
  omega

theorem pyRound_nonneg (q : ℚ) (hq : 0 ≤ q) : 0 ≤ pyRound q := by
  unfold pyRound
  dsimp only []
  have h0 : (0 : ℤ) ≤ ⌊q⌋ := Int.floor_nonneg.2 hq
  split_ifs <;> omega

theorem resultingSize_nonneg (fraction : Option ℚ) (n : Option ℤ) (len : Nat)
    (hf : ∀ f, fraction = some f → 0 ≤ f) (hn : ∀ m, n = some m → 0 ≤ m) :
    0 ≤ resultingSize fraction n len := by
  match fraction, n with
  | none, none => exact le_refl 0
  | none, some m => exact hn m rfl
  | some f, none =>
    exact pyRound_nonneg _ (mul_nonneg (hf f rfl) (Nat.cast_nonneg len))
  | some f, some m =>
    exact le_min (pyRound_nonneg _ (mul_nonneg (hf f rfl) (Nat.cast_nonneg len)))
      (hn m rfl)

theorem surviveSelect_spec {α : Type} (inds : List (Individual α))
    (maximize : Bool) (rs : ℤ) (luck : Bool) (rand : Nat → Nat) (hrs : 0 ≤ rs) :
    ((∃ e, surviveSelect inds maximize rs luck rand = .error e) ↔
      rs = 0 ∨ (inds.length : ℤ) < rs)
    ∧ (∀ l, surviveSelect inds maximize rs luck rand = .ok l →
        (l.length : ℤ) = rs ∧ 0 < rs ∧ rs ≤ (inds.length : ℤ)) := by
  unfold surviveSelect
  by_cases h0 : rs = 0
  · rw [if_pos h0]
    exact ⟨⟨fun _ => Or.inl h0, fun _ => ⟨_, rfl⟩⟩, fun l hl => by cases hl⟩
  · rw [if_neg h0]
    by_cases hlen : (inds.length : ℤ) < rs
    · rw [if_pos hlen]
      exact ⟨⟨fun _ => Or.inr hlen, fun _ => ⟨_, rfl⟩⟩, fun l hl => by cases hl⟩
    · rw [if_neg hlen]
      have hpos : 0 < rs := lt_of_le_of_ne hrs (fun h => h0 h.symm)
      have hle : rs ≤ (inds.length : ℤ) := le_of_not_lt hlen
      have hne : inds ≠ [] := by
        intro h
        rw [h] at hle
        simp at hle
        omega
      constructor
      · constructor
        · intro ⟨e, he⟩
          by_cases hl : luck = true
          · rw [if_pos hl] at he
            cases he
          · rw [if_neg hl] at he
            cases he
        · intro h
          rcases h with h | h
          · exact absurd h h0
          · exact absurd h hlen
      · intro l hl
        by_cases hlu : luck = true
        · rw [if_pos hlu] at hl
          have := Except.ok.inj hl
          rw [← this, length_luckPick inds rand rs hne,
            Int.toNat_of_nonneg hrs]
          exact ⟨rfl, hpos, hle⟩
        · rw [if_neg hlu] at hl
          have := Except.ok.inj hl
          rw [← this, length_pyTake _ rs hrs (by simpa using hle),
            Int.toNat_of_nonneg hrs]
          exact ⟨rfl, hpos, hle⟩

theorem except_map_error_iff {ε α β : Type} {f : α → β} {e : Except ε α} :
    (∃ err, e.map f = .error err) ↔ (∃ err, e = .error err) := by
  cases e with
  | error err => simp [Except.map]
  | ok a => simp [Except.map]

/-- C3: `survive(fraction, n, luck)` fails exactly when neither `fraction` nor
`n` is given, or the computed `resulting_size` (`round(fraction*len)` with only
`fraction`, `n` with only `n`, the minimum of the two with both) is `0`, or it
exceeds the population size; in every non-error case the surviving population
has exactly `resulting_size` individuals, a number that is positive and at most
the previous size.  (`fraction` is a proportion and `n` a count, so both are
taken non-negative.) -/
theorem survive_size_law {α : Type} (p : Population α) (fraction : Option ℚ)
    (n : Option ℤ) (luck : Bool) (rand : Nat → Nat)
    (hf : ∀ f, fraction = some f → 0 ≤ f) (hn : ∀ m, n = some m → 0 ≤ m) :
    ((∃ e, p.survive fraction n luck rand = .error e) ↔
      (fraction = none ∧ n = none)
      ∨ resultingSize fraction n p.individuals.length = 0
      ∨ (p.individuals.length : ℤ) < resultingSize fraction n p.individuals.length)
    ∧ (∀ q, p.survive fraction n luck rand = .ok q →
        (q.individuals.length : ℤ) = resultingSize fraction n p.individuals.length
        ∧ 0 < resultingSize fraction n p.individuals.length
        ∧ resultingSize fraction n p.individuals.length ≤ (p.individuals.length : ℤ)) := by
  have hrs := resultingSize_nonneg fraction n p.individuals.length hf hn
  have hspec := surviveSelect_spec (p.evaluate true).individuals
    (p.evaluate true).maximize (resultingSize fraction n p.individuals.length)
    luck rand hrs
  simp only [length_evaluate] at hspec
  rcases fraction with _ | f <;> rcases n with _ | m
  · refine ⟨⟨fun _ => Or.inl ⟨rfl, rfl⟩, fun _ => ⟨_, rfl⟩⟩, fun q h => by cases h⟩
  · unfold Population.survive
    dsimp only []
    constructor
    · rw [except_map_error_iff, hspec.1]
      constructor
      · intro h
        exact Or.inr h
      · intro h
        rcases h with ⟨_, h2⟩ | h | h
        · cases h2
        · exact Or.inl h
        · exact Or.inr h
    · intro q h
      rcases except_map_eq_ok h with ⟨l, hsl, hg⟩
      have hl := hspec.2 l hsl
      rw [← hg]
      exact hl
  · unfold Population.survive
    dsimp only []
    constructor
    · rw [except_map_error_iff, hspec.1]
      constructor
      · intro h
        exact Or.inr h
      · intro h
        rcases h with ⟨h1, _⟩ | h | h
        · cases h1
        · exact Or.inl h
        · exact Or.inr h
    · intro q h
      rcases except_map_eq_ok h with ⟨l, hsl, hg⟩
      have hl := hspec.2 l hsl
      rw [← hg]
      exact hl
  · unfold Population.survive
    dsimp only []
    constructor
    · rw [except_map_error_iff, hspec.1]
      constructor
      · intro h
        exact Or.inr h
      · intro h
        rcases h with ⟨h1, _⟩ | h | h
        · cases h1
        · exact Or.inl h
        · exact Or.inr h
    · intro q h
      rcases except_map_eq_ok h with ⟨l, hsl, hg⟩
      have hl := hspec.2 l hsl
      rw [← hg]
      exact hl

/-- C3, witness: the size law evaluated on the concrete example population with
`n = 2` (no error, two survivors) — the hypotheses are discharged at `fraction
= none`, `n = some 2`. -/
theorem survive_size_law_witness :
    ((∃ e, popExample.survive none (some 2) false (fun _ => 0) = .error e) ↔
      ((none : Option ℚ) = none ∧ (some (2 : ℤ) : Option ℤ) = none)
      ∨ resultingSize none (some 2) popExample.individuals.length = 0
      ∨ (popExample.individuals.length : ℤ) <
          resultingSize none (some 2) popExample.individuals.length)
    ∧ (∀ q, popExample.survive none (some 2) false (fun _ => 0) = .ok q →
        (q.individuals.length : ℤ) =
          resultingSize none (some 2) popExample.individuals.length
        ∧ 0 < resultingSize none (some 2) popExample.individuals.length
        ∧ resultingSize none (some 2) popExample.individuals.length ≤
            (popExample.individuals.length : ℤ)) :=
  survive_size_law popExample none (some 2) false (fun _ => 0)
    (fun f h => by cases h) (fun m h => by cases h; decide)

/-- C2, counterexample: `Population(chromosomes=[1,2,3,4], eval_function=lambda
c: c, maximize=True).survive(n=2)` keeps the two individuals of highest fitness
in descending fitness order, yielding the chromosome sequence `[4, 3]` — with
`4` before `3` — not `[3, 4]`. -/
theorem survive_example_counterexample :
    ((popExample.survive none (some 2) false (fun _ => 0)).map
      (fun q => q.individuals.map (fun ind => ind.chromosome)) = .ok [4, 3])
    ∧ ([4, 3] : List ℤ) ≠ [3, 4] :=
  ⟨rfl, by decide⟩

/-- C2 (amended): `Population(chromosomes=[1,2,3,4], eval_function=lambda c: c,
maximize=True).survive(n=2)` yields a population whose individuals have exactly
the chromosomes `4` and `3`, with `4` before `3` in the resulting sequence
order (descending fitness). -/
theorem survive_example_amended :
    (popExample.survive none (some 2) false (fun _ => 0)).map
      (fun q => q.individuals.map (fun ind => ind.chromosome)) = .ok [4, 3] := rfl

instance instFitDescTotal {α : Type} :
    IsTotal (Individual α) (fun a b => fitKey b ≤ fitKey a) :=
  ⟨fun a b => le_total (fitKey b) (fitKey a)⟩

instance instFitDescTrans {α : Type} :
    IsTrans (Individual α) (fun a b => fitKey b ≤ fitKey a) :=
  ⟨fun _ _ _ hab hbc => le_trans hbc hab⟩

theorem surviveSelect_ok_noluck {α : Type} (inds : List (Individual α))
    (maximize : Bool) (rs : ℤ) (rand : Nat → Nat) (l : List (Individual α))
    (hrs : 0 ≤ rs) (h : surviveSelect inds maximize rs false rand = .ok l) :
    l = (sortByFitness maximize inds).take rs.toNat := by
  unfold surviveSelect at h
  split at h
  · cases h
  · split at h
    · cases h
    · rw [if_neg Bool.false_ne_true] at h
      have hl := Except.ok.inj h
      rw [← hl]
      unfold pyTake
      rw [if_pos hrs]

theorem filter_orderedInsert_fitKey_eq {α : Type} (v : ℤ) (x : Individual α)
    (l : List (Individual α)) (hx : fitKey x = v) :
    (List.orderedInsert (fun a b => fitKey b ≤ fitKey a) x l).filter
        (fun y => fitKey y == v) =
      x :: l.filter (fun y => fitKey y == v) := by
  induction l with
  | nil => simp [List.orderedInsert, hx]
  | cons y t ih =>
    by_cases hr : fitKey y ≤ fitKey x
    · rw [List.orderedInsert, if_pos hr, List.filter_cons, List.filter_cons]
      simp [hx]
    · rw [List.orderedInsert, if_neg hr, List.filter_cons]
      have hy : ¬(fitKey y == v) = true := by
        simp only [beq_iff_eq]
        intro he
        exact hr (le_of_eq (he.trans hx.symm))
      rw [if_neg hy, ih, List.filter_cons, if_neg hy]

theorem filter_orderedInsert_fitKey_ne {α : Type} (v : ℤ) (x : Individual α)
    (l : List (Individual α)) (hx : fitKey x ≠ v) :
    (List.orderedInsert (fun a b => fitKey b ≤ fitKey a) x l).filter
        (fun y => fitKey y == v) = l.filter (fun y => fitKey y == v) := by
  have hxb : ¬(fitKey x == v) = true := by
    simp only [beq_iff_eq]
    exact hx
  induction l with
  | nil => simp [List.orderedInsert, hxb]
  | cons y t ih =>
    by_cases hr : fitKey y ≤ fitKey x
    · rw [List.orderedInsert, if_pos hr, List.filter_cons, if_neg hxb]
    · rw [List.orderedInsert, if_neg hr, List.filter_cons, ih, List.filter_cons]

/-- Stability of the survival sort: the individuals of any given fitness value
appear in the sorted sequence in the same relative order as before sorting. -/
theorem filter_sortByFitness_true {α : Type} (v : ℤ) (l : List (Individual α)) :
    (sortByFitness true l).filter (fun y => fitKey y == v) =
      l.filter (fun y => fitKey y == v) := by
  show (l.insertionSort (fun a b => fitKey b ≤ fitKey a)).filter
      (fun y => fitKey y == v) = l.filter (fun y => fitKey y == v)
  induction l with
  | nil => rfl
  | cons x t ih =>
    rw [List.insertionSort]
    by_cases hx : fitKey x = v
    · rw [filter_orderedInsert_fitKey_eq v x _ hx, ih, List.filter_cons,
        if_pos (by simpa using hx)]
    · rw [filter_orderedInsert_fitKey_ne v x _ hx, ih, List.filter_cons,
        if_neg (by simpa using hx)]

/-- C8: with `luck=False` and `maximize=True`, the survivors of a successful
`survive` are the individuals sorted stably by descending fitness and truncated
to `resulting_size`; the fitness of every survivor is at least the fitness of
every non-survivor (the sorted sequence is a permutation of the evaluated originals, so the
dropped tail is exactly the set of non-survivors); and individuals of equal
fitness keep their prior relative order. -/
theorem survive_truncation_correct {α : Type} (p : Population α)
    (fraction : Option ℚ) (n : Option ℤ) (rand : Nat → Nat) (q : Population α)
    (hf : ∀ f, fraction = some f → 0 ≤ f) (hn : ∀ m, n = some m → 0 ≤ m)
    (hmax : p.maximize = true)
    (h : p.survive fraction n false rand = .ok q) :
    q.individuals = (sortByFitness true ((p.evaluate true).individuals)).take
        (resultingSize fraction n p.individuals.length).toNat
    ∧ (∀ x ∈ q.individuals,
        ∀ y ∈ (sortByFitness true ((p.evaluate true).individuals)).drop
          (resultingSize fraction n p.individuals.length).toNat,
        fitKey y ≤ fitKey x)
    ∧ (sortByFitness true ((p.evaluate true).individuals)).Perm
        ((p.evaluate true).individuals)
    ∧ (∀ v : ℤ, (sortByFitness true ((p.evaluate true).individuals)).filter
        (fun ind => fitKey ind == v) =
        ((p.evaluate true).individuals).filter (fun ind => fitKey ind == v)) := by
  have hrs0 : 0 ≤ resultingSize fraction n p.individuals.length :=
    resultingSize_nonneg fraction n p.individuals.length hf hn
  have hmax' : (p.evaluate true).maximize = true := hmax
  have hmap : ∃ l, surviveSelect (p.evaluate true).individuals
      (p.evaluate true).maximize
      (resultingSize fraction n p.individuals.length) false rand = .ok l
      ∧ { p.evaluate true with individuals := l } = q := by
    rcases fraction with _ | f <;> rcases n with _ | m
    · exact absurd h (by simp [Population.survive])
    · exact except_map_eq_ok h
    · exact except_map_eq_ok h
    · exact except_map_eq_ok h
  rcases hmap with ⟨l, hsl, hq⟩
  rw [hmax'] at hsl
  have hl := surviveSelect_ok_noluck _ _ _ _ _ hrs0 hsl
  have hqind : q.individuals = l := by rw [← hq]
  have hsorted : List.Sorted (fun a b => fitKey b ≤ fitKey a)
      (sortByFitness true ((p.evaluate true).individuals)) :=
    List.sorted_insertionSort (fun a b => fitKey b ≤ fitKey a)
      ((p.evaluate true).individuals)
  refine ⟨hqind.trans hl, ?_, ?_, fun v => filter_sortByFitness_true v _⟩
  · intro x hx y hy
    rw [hqind, hl] at hx
    exact hsorted.rel_of_mem_take_of_mem_drop hx hy
  · exact List.perm_insertionSort (fun a b => fitKey b ≤ fitKey a) _

/-- The concrete result of the example `survive(n=2)` call, used as witness. -/
def popSurvived : Population ℤ :=
  { popExample with individuals :=
      [{ chromosome := 4, fitness := some 4 }, { chromosome := 3, fitness := some 3 }] }

/-- C8, witness: the truncation correctness evaluated on the concrete example
`survive(n=2)` call (whose survivors are the two top-fitness individuals). -/
theorem survive_truncation_correct_witness :
    popSurvived.individuals =
      (sortByFitness true ((popExample.evaluate true).individuals)).take
        (resultingSize none (some 2) popExample.individuals.length).toNat
    ∧ ((sortByFitness true ((popExample.evaluate true).individuals)).filter
        (fun ind => fitKey ind == 3) =
        ((popExample.evaluate true).individuals).filter
          (fun ind => fitKey ind == 3)) :=
  ⟨(survive_truncation_correct popExample none (some 2) (fun _ => 0) popSurvived
      (fun f hf => by cases hf) (fun m hm => by cases hm; decide) rfl rfl).1,
    (survive_truncation_correct popExample none (some 2) (fun _ => 0) popSurvived
      (fun f hf => by cases hf) (fun m hm => by cases hm; decide) rfl rfl).2.2.2 3⟩

/-! Claims C4 and C10: breeding. -/

theorem take_append_of_le {α : Type} (l₁ l₂ : List α) (n : Nat)
    (h : n ≤ l₁.length) : (l₁ ++ l₂).take n = l₁.take n := by
  induction l₁ generalizing n with
  | nil =>
    have : n = 0 := Nat.le_zero.1 (by simpa using h)
    simp [this]
  | cons a t ih =>
    cases n with
    | zero => rfl
    | succ m =>
      show a :: (t ++ l₂).take m = a :: t.take m
      rw [ih m (by simpa using h)]

theorem breed_fold_spec {α : Type} (picker : Nat → List (Individual α) → Parents α)
    (comb : Nat → List α → α) (sbb : Nat) (ks : List Nat) :
    ∀ acc : List (Individual α), sbb ≤ acc.length →
      ks.foldl (fun a k =>
        a ++ [{ chromosome := comb k (((picker k (a.take sbb)).toList).map
          (fun ind => ind.chromosome)), fitness := none }]) acc =
      acc ++ ks.map (fun k =>
        { chromosome := comb k (((picker k (acc.take sbb)).toList).map
          (fun ind => ind.chromosome)), fitness := none : Individual α }) := by
  induction ks with
  | nil => intro acc _; simp
  | cons k ks ih =>
    intro acc hacc
    rw [List.foldl_cons]
    set e : Individual α :=
      { chromosome := comb k (((picker k (acc.take sbb)).toList).map
          (fun ind => ind.chromosome)), fitness := none } with he
    have hlen : sbb ≤ (acc ++ [e]).length := by
      simp only [List.length_append, List.length_singleton]
      omega
    rw [ih (acc ++ [e]) hlen, take_append_of_le _ _ _ hacc, List.append_assoc]
    rfl

theorem breed_individuals {α : Type} (p : Population α)
    (picker : Nat → List (Individual α) → Parents α) (comb : Nat → List α → α)
    (popSize : Option ℤ) :
    (p.breed picker comb popSize).individuals =
      p.individuals ++ (List.range' p.individuals.length
        ((if pyTruthy popSize then (popSize.getD 0).toNat else p.intendedSize)
          - p.individuals.length)).map
        (fun k => { chromosome := comb k (((picker k p.individuals).toList).map
          (fun ind => ind.chromosome)), fitness := none }) := by
  unfold Population.breed
  dsimp only []
  rw [breed_fold_spec picker comb p.individuals.length _ p.individuals (le_refl _),
    List.take_length]

theorem length_breed_none {α : Type} (p : Population α)
    (picker : Nat → List (Individual α) → Parents α) (comb : Nat → List α → α)
    (hle : p.individuals.length ≤ p.intendedSize) :
    (p.breed picker comb none).individuals.length = p.intendedSize := by
  have hni := breed_individuals p picker comb none
  have hnone : pyTruthy none = false := rfl
  rw [hnone, if_neg Bool.false_ne_true] at hni
  rw [hni]
  simp only [List.length_append, List.length_map, List.length_range']
  omega

/-- C4: for a population with fewer individuals than `intended_size = N`,
`breed(parent_picker, combiner)` produces exactly `N` individuals: the original
individuals first, unchanged, followed by offspring whose chromosomes are the
`combiner` outputs on the chromosomes of the picked parents and whose fitness is
`None`; every call of `parent_picker` receives exactly the snapshot of the
individuals present before breeding started, so the result only depends on the
behaviour of the picker on that snapshot and offspring never become parents within
the same call. -/
theorem breed_fills_to_intended {α : Type} (p : Population α)
    (picker : Nat → List (Individual α) → Parents α) (comb : Nat → List α → α)
    (hlt : p.individuals.length < p.intendedSize) :
    (p.breed picker comb none).individuals.length = p.intendedSize
    ∧ (p.breed picker comb none).individuals.take p.individuals.length =
        p.individuals
    ∧ (p.breed picker comb none).individuals.drop p.individuals.length =
        (List.range' p.individuals.length (p.intendedSize - p.individuals.length)).map
          (fun k => { chromosome := comb k (((picker k p.individuals).toList).map
            (fun ind => ind.chromosome)), fitness := none })
    ∧ (∀ ind ∈ (p.breed picker comb none).individuals.drop p.individuals.length,
        ind.fitness = none)
    ∧ (∀ picker' : Nat → List (Individual α) → Parents α,
        (∀ k, picker' k p.individuals = picker k p.individuals) →
        p.breed picker' comb none = p.breed picker comb none) := by
  have hni := breed_individuals p picker comb none
  have hnone : pyTruthy none = false := rfl
  rw [hnone, if_neg Bool.false_ne_true] at hni
  refine ⟨length_breed_none p picker comb (le_of_lt hlt), ?_, ?_, ?_, ?_⟩
  · rw [hni, take_append_of_le _ _ _ (le_refl _), List.take_length]
  · rw [hni, List.drop_left]
  · intro ind hmem
    rw [hni, List.drop_left] at hmem
    rcases List.mem_map.1 hmem with ⟨k, _, hk⟩
    rw [← hk]
  · intro picker' hpp
    unfold Population.breed
    dsimp only []
    rw [breed_fold_spec picker' comb p.individuals.length _ p.individuals (le_refl _),
      breed_fold_spec picker comb p.individuals.length _ p.individuals (le_refl _),
      List.take_length]
    congr 1
    congr 1
    apply List.map_congr_left
    intro k _
    rw [hpp k]

/-- Example population with two individuals but `intended_size = 4`, to be
filled by breeding. -/
def popToBreed : Population ℤ :=
  { popExample with individuals :=
      [{ chromosome := 1, fitness := none }, { chromosome := 2, fitness := none }] }

/-- C4, witness: breeding the two-individual population with `intended_size = 4`
up to four individuals, the original two unchanged in front. -/
theorem breed_fills_to_intended_witness :
    (popToBreed.breed (fun _ l => Parents.group (l.take 2))
      (fun _ l => l.foldl (· + ·) 0) none).individuals.length =
      popToBreed.intendedSize
    ∧ (popToBreed.breed (fun _ l => Parents.group (l.take 2))
        (fun _ l => l.foldl (· + ·) 0) none).individuals.take
          popToBreed.individuals.length = popToBreed.individuals :=
  ⟨(breed_fills_to_intended popToBreed (fun _ l => Parents.group (l.take 2))
      (fun _ l => l.foldl (· + ·) 0) (by decide)).1,
    (breed_fills_to_intended popToBreed (fun _ l => Parents.group (l.take 2))
      (fun _ l => l.foldl (· + ·) 0) (by decide)).2.1⟩

/-- C10: `breed` with `population_size=0` does not override `intended_size`,
because the override is guarded by the truthiness of `population_size`; the
population is therefore still filled up to the previously stored
`intended_size`, and more generally any `population_size` whose Python truth
value is false behaves exactly like passing `None`. -/
theorem breed_population_size_zero {α : Type} (p : Population α)
    (picker : Nat → List (Individual α) → Parents α) (comb : Nat → List α → α) :
    p.breed picker comb (some 0) = p.breed picker comb none
    ∧ (p.breed picker comb (some 0)).intendedSize = p.intendedSize
    ∧ (∀ ps : Option ℤ, pyTruthy ps = false →
        p.breed picker comb ps = p.breed picker comb none)
    ∧ (p.individuals.length < p.intendedSize →
        (p.breed picker comb (some 0)).individuals.length = p.intendedSize) := by
  have hgen : ∀ ps : Option ℤ, pyTruthy ps = false →
      p.breed picker comb ps = p.breed picker comb none := by
    intro ps hps
    unfold Population.breed
    rw [hps]
    rfl
  refine ⟨hgen (some 0) rfl, ?_, hgen, ?_⟩
  · show (if pyTruthy (some 0) then ((some (0 : ℤ)).getD 0).toNat
      else p.intendedSize) = p.intendedSize
    rfl
  · intro hlt
    rw [hgen (some 0) rfl]
    exact length_breed_none p picker comb (le_of_lt hlt)

/-- C10, witness: `population_size=0` on the concrete example population leaves
`intended_size` at `4` and the population is filled to `4` individuals. -/
theorem breed_population_size_zero_witness :
    (popToBreed.breed (fun _ l => Parents.group (l.take 2))
        (fun _ l => l.foldl (· + ·) 0) (some 0)).intendedSize =
      popToBreed.intendedSize
    ∧ (popToBreed.breed (fun _ l => Parents.group (l.take 2))
        (fun _ l => l.foldl (· + ·) 0) (some 0)).individuals.length =
      popToBreed.intendedSize :=
  ⟨(breed_population_size_zero popToBreed (fun _ l => Parents.group (l.take 2))
      (fun _ l => l.foldl (· + ·) 0)).2.1,
    (breed_population_size_zero popToBreed (fun _ l => Parents.group (l.take 2))
      (fun _ l => l.foldl (· + ·) 0)).2.2.2 (by decide)⟩
